import Mathlib

set_option maxHeartbeats 1000000

/-!
Shallow embedding of the YAML event-stream indexing/extraction core
(src/backend/utils/adt/yamlfunc.c, src/backend/utils/adt/yaml.c,
src/common/yamlapi.c).

Events are modelled as a tagged variant mirroring libyaml's
`yaml_event_t`; byte strings (scalar values, anchors, tags, returned
text) are `List Nat`.  The external libyaml emitter/parser pair is
treated as the black box the repository treats it as: sub-tree
extraction is modelled at the event level (the sequence of events the
code hands to the emitter), and the output-buffer discipline is
modelled at the byte level (one byte chunk per emitted event).
Machine integers that can wrap in the source (the `unsigned int scope`
of `yaml_get_sub_tree`) are `Nat` with explicit `% 2^32`; signed C
`int` counters are `Int`.
-/

/-- One parsed YAML event, mirroring the `yaml_event_t` variants the
source code switches on.  Scalar events carry anchor, tag, value bytes,
length, plain-implicit flag, quoted-implicit flag and style; container
start events carry anchor, tag, implicit flag and style, exactly the
fields `yaml_get_sub_tree` copies. -/
inductive YamlEvent where
  | noEvent
  | streamStart
  | streamEnd
  | documentStart
  | documentEnd
  | aliasEvent
  | scalar (anchor : Option (List Nat)) (tag : Option (List Nat)) (value : List Nat)
      (length : Nat) (plainImplicit : Nat) (quotedImplicit : Nat) (style : Nat)
  | sequenceStart (anchor : Option (List Nat)) (tag : Option (List Nat))
      (implicit : Nat) (style : Nat)
  | sequenceEnd
  | mappingStart (anchor : Option (List Nat)) (tag : Option (List Nat))
      (implicit : Nat) (style : Nat)
  | mappingEnd
deriving DecidableEq

def isScalarEvent : YamlEvent → Bool
  | .scalar _ _ _ _ _ _ _ => true
  | _ => false

def isSeqStartEvent : YamlEvent → Bool
  | .sequenceStart _ _ _ _ => true
  | _ => false

def isMapStartEvent : YamlEvent → Bool
  | .mappingStart _ _ _ _ => true
  | _ => false

def isStartEvent (e : YamlEvent) : Bool := isSeqStartEvent e || isMapStartEvent e

def isEndEvent : YamlEvent → Bool
  | .sequenceEnd => true
  | .mappingEnd => true
  | _ => false

/-- Events the spec's data model is made of: scalars and container
start/end markers (no stream/document boundaries, no aliases). -/
def isStructuralEvent (e : YamlEvent) : Bool :=
  isScalarEvent e || isStartEvent e || isEndEvent e

def tagOf : YamlEvent → Option (List Nat)
  | .scalar _ t _ _ _ _ _ => t
  | .sequenceStart _ t _ _ => t
  | .mappingStart _ t _ _ => t
  | _ => none

def anchorOf : YamlEvent → Option (List Nat)
  | .scalar a _ _ _ _ _ _ => a
  | .sequenceStart a _ _ _ => a
  | .mappingStart a _ _ _ => a
  | _ => none

def styleOf : YamlEvent → Nat
  | .scalar _ _ _ _ _ _ s => s
  | .sequenceStart _ _ _ s => s
  | .mappingStart _ _ _ s => s
  | _ => 0

def scalarValueOf : YamlEvent → Option (List Nat)
  | .scalar _ _ v _ _ _ _ => some v
  | _ => none

/-- C `strncmp(a, b, n) == 0`, with the end of either byte list playing
the role of the NUL terminator: compare at most `n` bytes, stopping
early at the first difference or at a terminator reached by both. -/
def strncmpEq : List Nat → List Nat → Nat → Bool
  | _, _, 0 => true
  | [], [], _ + 1 => true
  | [], y :: _, _ + 1 => y == 0
  | x :: _, [], _ + 1 => x == 0
  | x :: as, y :: bs, n + 1 => x == y && (x == 0 || strncmpEq as bs n)

/-- Loop body of `yaml_find_key_on_root`: signed scope starting at -1,
key/value toggle reset on container ends, scalars compared with
`strncmp(value, key, strlen(key))` when at scope 0 in key position;
on match the index of the following event is returned. -/
def findKeyLoop (key : List Nat) : List YamlEvent → Int → Nat → Nat → Option Nat
  | [], _, _, _ => none
  | e :: rest, scope, kv, i =>
    match e with
    | .sequenceStart _ _ _ _ => findKeyLoop key rest (scope + 1) kv (i + 1)
    | .sequenceEnd => findKeyLoop key rest (scope - 1) 0 (i + 1)
    | .mappingStart _ _ _ _ => findKeyLoop key rest (scope + 1) kv (i + 1)
    | .mappingEnd => findKeyLoop key rest (scope - 1) 0 (i + 1)
    | .scalar _ _ v _ _ _ _ =>
      if scope ≠ 0 then findKeyLoop key rest scope kv (i + 1)
      else if kv = 0 then
        if strncmpEq v key key.length then some (i + 1)
        else findKeyLoop key rest scope 1 (i + 1)
      else findKeyLoop key rest scope 0 (i + 1)
    | _ => findKeyLoop key rest scope kv (i + 1)

/-- `yaml_find_key_on_root` (yamlfunc.c:259-311): `none` models the
`-1` not-found sentinel. -/
def yaml_find_key_on_root (events : List YamlEvent) (key : List Nat) : Option Nat :=
  findKeyLoop key events (-1) 0 0

/-- Variant of the key-locator loop written from the claim's words with
the comparison read literally: the query key must be a byte-for-byte
prefix of the stored scalar value (amended semantics of the
`strncmp` call). -/
def findKeyPrefLoop (key : List Nat) : List YamlEvent → Int → Nat → Nat → Option Nat
  | [], _, _, _ => none
  | e :: rest, scope, kv, i =>
    match e with
    | .sequenceStart _ _ _ _ => findKeyPrefLoop key rest (scope + 1) kv (i + 1)
    | .sequenceEnd => findKeyPrefLoop key rest (scope - 1) 0 (i + 1)
    | .mappingStart _ _ _ _ => findKeyPrefLoop key rest (scope + 1) kv (i + 1)
    | .mappingEnd => findKeyPrefLoop key rest (scope - 1) 0 (i + 1)
    | .scalar _ _ v _ _ _ _ =>
      if scope ≠ 0 then findKeyPrefLoop key rest scope kv (i + 1)
      else if kv = 0 then
        if key.isPrefixOf v then some (i + 1)
        else findKeyPrefLoop key rest scope 1 (i + 1)
      else findKeyPrefLoop key rest scope 0 (i + 1)
    | _ => findKeyPrefLoop key rest scope kv (i + 1)

def findKeyPrefSpec (events : List YamlEvent) (key : List Nat) : Option Nat :=
  findKeyPrefLoop key events (-1) 0 0

/-- Variant of the key-locator loop with the comparison the claim
states: exact length-and-content equality of the scalar value and the
query key. -/
def findKeyExactLoop (key : List Nat) : List YamlEvent → Int → Nat → Nat → Option Nat
  | [], _, _, _ => none
  | e :: rest, scope, kv, i =>
    match e with
    | .sequenceStart _ _ _ _ => findKeyExactLoop key rest (scope + 1) kv (i + 1)
    | .sequenceEnd => findKeyExactLoop key rest (scope - 1) 0 (i + 1)
    | .mappingStart _ _ _ _ => findKeyExactLoop key rest (scope + 1) kv (i + 1)
    | .mappingEnd => findKeyExactLoop key rest (scope - 1) 0 (i + 1)
    | .scalar _ _ v _ _ _ _ =>
      if scope ≠ 0 then findKeyExactLoop key rest scope kv (i + 1)
      else if kv = 0 then
        if v = key then some (i + 1)
        else findKeyExactLoop key rest scope 1 (i + 1)
      else findKeyExactLoop key rest scope 0 (i + 1)
    | _ => findKeyExactLoop key rest scope kv (i + 1)

def findKeyExactSpec (events : List YamlEvent) (key : List Nat) : Option Nat :=
  findKeyExactLoop key events (-1) 0 0

/-- The event copy `yaml_get_sub_tree` re-emits.  Container and end
events are rebuilt with identical fields; for scalars the source
passes `style` in the `plain_implicit` argument slot of
`yaml_scalar_event_initialize`, so the copy's plain-implicit flag
receives the style value while anchor, tag, value, length,
quoted-implicit and style are carried over verbatim. -/
def copyEvent : YamlEvent → YamlEvent
  | .scalar a t v n _ q s => .scalar a t v n s q s
  | e => e

def U32 : Nat := 4294967296

def u32add1 (x : Nat) : Nat := (x + 1) % U32

def u32sub1 (x : Nat) : Nat := (x + (U32 - 1)) % U32

/-- Copy loop of `yaml_get_sub_tree` (yamlfunc.c:371-457): `scope` is
the C `unsigned int` counter (wrapping at 2^32); the loop stops after
emitting a scalar seen at scope 0, after emitting an end event that
brings scope to 0, or at a stream/document end event (not emitted);
stream/document start, alias and no-events are skipped. -/
def subTreeLoop : List YamlEvent → Nat → List YamlEvent
  | [], _ => []
  | e :: rest, scope =>
    match e with
    | .scalar a t v n p q s =>
      if scope = 0 then [copyEvent (.scalar a t v n p q s)]
      else copyEvent (.scalar a t v n p q s) :: subTreeLoop rest scope
    | .sequenceStart a t im s =>
      copyEvent (.sequenceStart a t im s) :: subTreeLoop rest (u32add1 scope)
    | .sequenceEnd =>
      if u32sub1 scope = 0 then [copyEvent .sequenceEnd]
      else copyEvent .sequenceEnd :: subTreeLoop rest (u32sub1 scope)
    | .mappingStart a t im s =>
      copyEvent (.mappingStart a t im s) :: subTreeLoop rest (u32add1 scope)
    | .mappingEnd =>
      if u32sub1 scope = 0 then [copyEvent .mappingEnd]
      else copyEvent .mappingEnd :: subTreeLoop rest (u32sub1 scope)
    | .streamStart => subTreeLoop rest scope
    | .documentStart => subTreeLoop rest scope
    | .streamEnd => []
    | .documentEnd => []
    | .aliasEvent => subTreeLoop rest scope
    | .noEvent => subTreeLoop rest scope

/-- Event-level model of `yaml_get_sub_tree` (yamlfunc.c:332-489): the
sequence of events handed to the emitter — synthetic stream/document
start, the copied node events, synthetic document/stream end. -/
def yaml_get_sub_tree_events (events : List YamlEvent) (location : Nat) : List YamlEvent :=
  .streamStart :: .documentStart ::
    (subTreeLoop (events.drop location) 0 ++ [.documentEnd, .streamEnd])

/-- Spec-side node boundary (claim C2's words): consume events until
the scope tracked from the node's start returns to 0, keeping every
consumed event. -/
def takeToZero : List YamlEvent → Nat → Option (List YamlEvent)
  | [], _ => none
  | e :: rest, d =>
    if isStartEvent e then (takeToZero rest (d + 1)).map (e :: ·)
    else if isEndEvent e then
      if d = 1 then some [e] else (takeToZero rest (d - 1)).map (e :: ·)
    else (takeToZero rest d).map (e :: ·)

/-- Spec-side bounded node at the front of an event list: a scalar is a
single-event node; a container start extends to its matching end. -/
def nodeOfSpec : List YamlEvent → Option (List YamlEvent)
  | [] => none
  | e :: rest =>
    if isScalarEvent e then some [e]
    else if isStartEvent e then (takeToZero rest 1).map (e :: ·)
    else none

def scalarTypeText : List Nat := [115, 99, 97, 108, 97, 114]

def sequenceTypeText : List Nat := [115, 101, 113, 117, 101, 110, 99, 101]

def mappingTypeText : List Nat := [109, 97, 112, 112, 105, 110, 103]

def unknownTypeText : List Nat := [85, 110, 107, 110, 111, 119, 110, 32, 84, 121, 112, 101]

/-- `yaml_get_object_type` (yamlfunc.c:239-257): reads the event at
index 2 and returns the type name as text bytes; `none` models the
out-of-bounds read when no index-2 event exists. -/
def yaml_get_object_type (events : List YamlEvent) : Option (List Nat) :=
  (events.get? 2).map fun e =>
    match e with
    | .scalar _ _ _ _ _ _ _ => scalarTypeText
    | .sequenceStart _ _ _ _ => sequenceTypeText
    | .mappingStart _ _ _ _ => mappingTypeText
    | _ => unknownTypeText

/-- Loop of `yaml_count_array_size` (yamlfunc.c:196-230): per event,
elements (scalars and container starts) seen at scope exactly 1 are
counted before the scope update, and after each event the loop breaks
as soon as scope has returned to 0. -/
def countLoop : List YamlEvent → Int → Int → Int
  | [], _, count => count
  | e :: rest, scope, count =>
    match e with
    | .scalar _ _ _ _ _ _ _ =>
      if scope = 0 then (if scope = 1 then count + 1 else count)
      else countLoop rest scope (if scope = 1 then count + 1 else count)
    | .sequenceStart _ _ _ _ =>
      if scope + 1 = 0 then (if scope = 1 then count + 1 else count)
      else countLoop rest (scope + 1) (if scope = 1 then count + 1 else count)
    | .sequenceEnd =>
      if scope - 1 = 0 then count else countLoop rest (scope - 1) count
    | .mappingStart _ _ _ _ =>
      if scope + 1 = 0 then (if scope = 1 then count + 1 else count)
      else countLoop rest (scope + 1) (if scope = 1 then count + 1 else count)
    | .mappingEnd =>
      if scope - 1 = 0 then count else countLoop rest (scope - 1) count
    | _ =>
      if scope = 0 then count else countLoop rest scope count

/-- `yaml_count_array_size` (yamlfunc.c:188-232): walks from index 2
with scope 0 and count 0. -/
def yaml_count_array_size (events : List YamlEvent) : Int :=
  countLoop (events.drop 2) 0 0

/-- A YAML value tree: the semantic universe of well-formed single
documents (scalar, sequence of values, mapping of key/value pairs,
keys themselves arbitrary nodes as YAML allows). -/
inductive YamlTree where
  | scalar (v : List Nat)
  | seq (xs : List YamlTree)
  | map (ps : List (YamlTree × YamlTree))

mutual

/-- Event serialization of a tree, as the black-box parser would
produce it for the node (plain style, no anchors or tags). -/
def eventsOfTree : YamlTree → List YamlEvent
  | .scalar v => [.scalar none none v v.length 1 0 0]
  | .seq xs => .sequenceStart none none 1 0 :: (eventsOfTrees xs ++ [.sequenceEnd])
  | .map ps => .mappingStart none none 1 0 :: (eventsOfPairs ps ++ [.mappingEnd])

def eventsOfTrees : List YamlTree → List YamlEvent
  | [] => []
  | t :: ts => eventsOfTree t ++ eventsOfTrees ts

def eventsOfPairs : List (YamlTree × YamlTree) → List YamlEvent
  | [] => []
  | (k, v) :: ps => eventsOfTree k ++ (eventsOfTree v ++ eventsOfPairs ps)

end

mutual

/-- Maximum container nesting depth of a tree. -/
def depthT : YamlTree → Nat
  | .scalar _ => 0
  | .seq xs => depthL xs + 1
  | .map ps => depthP ps + 1

def depthL : List YamlTree → Nat
  | [] => 0
  | t :: ts => max (depthT t) (depthL ts)

def depthP : List (YamlTree × YamlTree) → Nat
  | [] => 0
  | (k, v) :: ps => max (max (depthT k) (depthT v)) (depthP ps)

end

/-- Full single-document event stream for a root node: the canonical
`[StreamStart, DocumentStart, node, DocumentEnd, StreamEnd]` shape. -/
def docEvents (t : YamlTree) : List YamlEvent :=
  .streamStart :: .documentStart :: (eventsOfTree t ++ [.documentEnd, .streamEnd])

/-- The growable output buffer of `yaml_get_sub_tree`: bytes written so
far plus current allocation. -/
structure EmitBuffer where
  written : List Nat
  allocated : Nat
deriving DecidableEq

/-- The fixed low-water mark of the resize check (yamlfunc.c:460),
which equals libyaml's default emitter output-buffer size (the initial
allocation, yamlfunc.c:344-346). -/
def lowWaterMark : Nat := 16384

def initialEmitBuffer : EmitBuffer := ⟨[], 16384⟩

/-- Appending one emitted event's bytes to the buffer; `none` models an
out-of-bounds write (overflow of the allocation). -/
def writeChunk (b : EmitBuffer) (c : List Nat) : Option EmitBuffer :=
  if b.written.length + c.length ≤ b.allocated then some ⟨b.written ++ c, b.allocated⟩
  else none

/-- The resize step after each loop iteration (yamlfunc.c:459-466):
if remaining free capacity is below the low-water mark, double the
allocation; `repalloc` keeps the already-written bytes. -/
def growIfLow (b : EmitBuffer) : EmitBuffer :=
  if b.allocated - b.written.length < lowWaterMark then ⟨b.written, b.allocated * 2⟩
  else b

/-- The extraction loop at the byte level: write each event's emitted
chunk, then run the resize check, as the source does once per event. -/
def emitAll : List (List Nat) → EmitBuffer → Option EmitBuffer
  | [], b => some b
  | c :: cs, b =>
    match writeChunk b c with
    | none => none
    | some b2 => emitAll cs (growIfLow b2)

/-- Byte-level model of `yaml_get_sub_tree`'s result construction
(yamlfunc.c:481-488): outer `none` is an emitter overflow; on success,
a written size of 0 yields the NULL no-result sentinel (inner `none`),
otherwise the text is the buffer with the first 14 prologue bytes
skipped. -/
def yamlSubTreeText (chunks : List (List Nat)) : Option (Option (List Nat)) :=
  match emitAll chunks initialEmitBuffer with
  | none => none
  | some b => some (if b.written.length = 0 then none else some (b.written.drop 14))

/-- Result channel of the SQL-facing sequence functions: `oobRead`
models the undefined out-of-bounds read of `events[2]` on a short
sequence, `notASequence` the `ereport` raised for a non-sequence root. -/
inductive YamlCallResult (α : Type) where
  | oobRead
  | notASequence
  | ok (val : α)
deriving DecidableEq

/-- The root-type guard used by `yaml_sequence_length` and
`yaml_sequence_elements`:
`strncmp(VARDATA(type), "sequence", VARSIZE(type)) == 0`. -/
def sequenceCheckPasses (t : List Nat) : Bool :=
  strncmpEq t sequenceTypeText t.length

/-- `yaml_sequence_length` (yaml.c:122-147): classify the root, raise
for non-sequence roots, otherwise count. -/
def yaml_sequence_length (events : List YamlEvent) : YamlCallResult Int :=
  match yaml_get_object_type events with
  | none => .oobRead
  | some t =>
    if sequenceCheckPasses t then .ok (yaml_count_array_size events)
    else .notASequence

/-- One yielded row of `yaml_sequence_elements`: container elements are
materialized through `yaml_get_sub_tree` (event-level output), scalar
elements directly as `cstring_to_text_with_len(value, length)`. -/
inductive SeqElemOut where
  | subtree (evts : List YamlEvent)
  | rawScalar (value : List Nat) (length : Nat)
deriving DecidableEq

/-- Loop of `yaml_sequence_elements` (yamlfunc.c:567-604): walks from
index 3 with signed scope 0; container starts at scope 0 yield a
sub-tree extraction at their index, scalars at scope 0 yield their raw
bytes; no early exit. -/
def seqElemsLoop (allEvents : List YamlEvent) :
    List YamlEvent → Int → Nat → List SeqElemOut
  | [], _, _ => []
  | e :: rest, scope, i =>
    match e with
    | .sequenceStart _ _ _ _ =>
      (if scope = 0 then [.subtree (yaml_get_sub_tree_events allEvents i)] else []) ++
        seqElemsLoop allEvents rest (scope + 1) (i + 1)
    | .mappingStart _ _ _ _ =>
      (if scope = 0 then [.subtree (yaml_get_sub_tree_events allEvents i)] else []) ++
        seqElemsLoop allEvents rest (scope + 1) (i + 1)
    | .sequenceEnd => seqElemsLoop allEvents rest (scope - 1) (i + 1)
    | .mappingEnd => seqElemsLoop allEvents rest (scope - 1) (i + 1)
    | .scalar _ _ v n _ _ _ =>
      (if scope = 0 then [.rawScalar v n] else []) ++
        seqElemsLoop allEvents rest scope (i + 1)
    | _ => seqElemsLoop allEvents rest scope (i + 1)

/-- `yaml_sequence_elements` (yamlfunc.c:544-607): root-type guard,
then the element walk. -/
def yaml_sequence_elements (events : List YamlEvent) : YamlCallResult (List SeqElemOut) :=
  match yaml_get_object_type events with
  | none => .oobRead
  | some t =>
    if sequenceCheckPasses t then .ok (seqElemsLoop events (events.drop 3) 0 3)
    else .notASequence

/-- Claim-side enumeration (claim C8's words read literally): every
direct element, scalar or container, is yielded by invoking the
Subtree Extractor at the element's start index. -/
def seqElemsClaimLoop (allEvents : List YamlEvent) :
    List YamlEvent → Int → Nat → List SeqElemOut
  | [], _, _ => []
  | e :: rest, scope, i =>
    match e with
    | .sequenceStart _ _ _ _ =>
      (if scope = 0 then [.subtree (yaml_get_sub_tree_events allEvents i)] else []) ++
        seqElemsClaimLoop allEvents rest (scope + 1) (i + 1)
    | .mappingStart _ _ _ _ =>
      (if scope = 0 then [.subtree (yaml_get_sub_tree_events allEvents i)] else []) ++
        seqElemsClaimLoop allEvents rest (scope + 1) (i + 1)
    | .sequenceEnd => seqElemsClaimLoop allEvents rest (scope - 1) (i + 1)
    | .mappingEnd => seqElemsClaimLoop allEvents rest (scope - 1) (i + 1)
    | .scalar _ _ _ _ _ _ _ =>
      (if scope = 0 then [.subtree (yaml_get_sub_tree_events allEvents i)] else []) ++
        seqElemsClaimLoop allEvents rest scope (i + 1)
    | _ => seqElemsClaimLoop allEvents rest scope (i + 1)

def seqElemsClaimed (events : List YamlEvent) : YamlCallResult (List SeqElemOut) :=
  match yaml_get_object_type events with
  | none => .oobRead
  | some t =>
    if sequenceCheckPasses t then .ok (seqElemsClaimLoop events (events.drop 3) 0 3)
    else .notASequence

/-- Expected enumeration output for a list of direct elements whose
first event sits at index `i` of the whole stream (amended claim C8):
scalars yield their raw bytes, containers yield the extractor output. -/
def elemOuts : List YamlTree → Nat → List SeqElemOut
  | [], _ => []
  | .scalar v :: ts, i => .rawScalar v v.length :: elemOuts ts (i + 1)
  | t :: ts, i =>
    .subtree (.streamStart :: .documentStart ::
        ((eventsOfTree t).map copyEvent ++ [.documentEnd, .streamEnd])) ::
      elemOuts ts (i + (eventsOfTree t).length)

/-- `yaml_object_field` (yamlfunc.c:496-518) at the event level: locate
the key, extract on hit, surface not-found as a null result. -/
def yaml_object_field_model (events : List YamlEvent) (key : List Nat) :
    Option (List YamlEvent) :=
  match yaml_find_key_on_root events key with
  | none => none
  | some i => some (yaml_get_sub_tree_events events i)

/-- The event-accumulation of `pg_parse_yaml`'s do-while loop
(yamlapi.c:72-90): store every event the black-box parser yields, up
to and including the first stream-end event. -/
def takeThroughStreamEnd : List YamlEvent → List YamlEvent
  | [] => []
  | e :: rest => if e = .streamEnd then [e] else e :: takeThroughStreamEnd rest

/-- `pg_parse_yaml` (yamlapi.c:59-92) over the black-box parser's
output: a parse failure is propagated unchanged, a successful event
stream is stored as-is with no shape validation. -/
def pg_parse_yaml_model (parserOutput : Except Nat (List YamlEvent)) :
    Except Nat (List YamlEvent) :=
  match parserOutput with
  | .error e => .error e
  | .ok evs => .ok (takeThroughStreamEnd evs)

/-- Event stream of the document `abc: 1`. -/
def ex1 : List YamlEvent :=
  [.streamStart, .documentStart, .mappingStart none none 1 0,
   .scalar none none [97, 98, 99] 3 1 0 0, .scalar none none [49] 1 1 0 0,
   .mappingEnd, .documentEnd, .streamEnd]

/-- The root mapping node of `ex1`. -/
def exNode : List YamlEvent :=
  [.mappingStart none none 1 0, .scalar none none [97, 98, 99] 3 1 0 0,
   .scalar none none [49] 1 1 0 0, .mappingEnd]

/-- Event stream of the document `abc: 1, ab: 2` (root mapping with the
scope-0 keys `abc` then `ab`). -/
def exM : List YamlEvent :=
  [.streamStart, .documentStart, .mappingStart none none 1 0,
   .scalar none none [97, 98, 99] 3 1 0 0, .scalar none none [49] 1 1 0 0,
   .scalar none none [97, 98] 2 1 0 0, .scalar none none [50] 1 1 0 0,
   .mappingEnd, .documentEnd, .streamEnd]

/-- Event stream of the document `- a` (root sequence with one scalar
element). -/
def ex8 : List YamlEvent :=
  [.streamStart, .documentStart, .sequenceStart none none 1 0,
   .scalar none none [97] 1 1 0 0, .sequenceEnd, .documentEnd, .streamEnd]

/-- Event stream of the scalar-root document `7`. -/
def exScalarDoc : List YamlEvent :=
  [.streamStart, .documentStart, .scalar none none [55] 1 1 0 0,
   .documentEnd, .streamEnd]

theorem u32add1_eq (x : Nat) (h : x + 1 < U32) : u32add1 x = x + 1 := by
  unfold u32add1 U32 at *; omega

theorem u32sub1_eq (x : Nat) (h1 : 1 ≤ x) (h2 : x < U32) : u32sub1 x = x - 1 := by
  unfold u32sub1 U32 at *; omega

theorem drop_cons_of_drop {α : Type} (A : List α) (i : Nat) (x : α) (l : List α)
    (h : A.drop i = x :: l) : A.drop (i + 1) = l := by
  have h2 : A.drop (i + 1) = (A.drop i).drop 1 := by
    rw [List.drop_drop, Nat.add_comm]
  rw [h2, h]
  rfl

theorem drop_chunk_of_drop {α : Type} (A : List α) (i : Nat) (b l : List α)
    (h : A.drop i = b ++ l) : A.drop (i + b.length) = l := by
  have h2 : A.drop (i + b.length) = (A.drop i).drop b.length := by
    rw [List.drop_drop, Nat.add_comm]
  rw [h2, h, List.drop_left]

theorem get_some_drop {α : Type} (l : List α) (n : Nat) (x : α)
    (h : l.get? n = some x) : ∃ rest, l.drop n = x :: rest := by
  induction l generalizing n with
  | nil => simp at h
  | cons a as ih =>
    cases n with
    | zero =>
      rw [List.get?_cons_zero] at h
      cases h
      exact ⟨as, rfl⟩
    | succ n =>
      rw [List.get?_cons_succ] at h
      obtain ⟨rest, hr⟩ := ih n h
      exact ⟨rest, by simpa using hr⟩

theorem copyEvent_meta (e : YamlEvent) :
    tagOf (copyEvent e) = tagOf e ∧ styleOf (copyEvent e) = styleOf e ∧
    anchorOf (copyEvent e) = anchorOf e := by
  cases e <;> simp [copyEvent, tagOf, styleOf, anchorOf]

theorem strncmpEq_eq_isPrefixOf (key : List Nat) (hk : 0 ∉ key) :
    ∀ v : List Nat, strncmpEq v key key.length = key.isPrefixOf v := by
  induction key with
  | nil =>
    intro v
    cases v <;> simp [strncmpEq, List.isPrefixOf]
  | cons k ks ih =>
    intro v
    have hkne : k ≠ 0 := fun h => hk (by simp [h])
    have hks : 0 ∉ ks := fun h => hk (by simp [h])
    cases v with
    | nil =>
      have hk0 : (k == 0) = false := by simp [hkne]
      simp [strncmpEq, List.isPrefixOf, hk0]
    | cons x xs =>
      simp only [List.length_cons, strncmpEq, List.isPrefixOf]
      by_cases hxk : x = k
      · subst hxk
        have hx0 : (x == 0) = false := by simp [hkne]
        simp [hx0, ih hks xs]
      · have h1 : (x == k) = false := by simp [hxk]
        have h2 : (k == x) = false := by simp [Ne.symm hxk]
        simp [h1, h2]

theorem YamlTree.customInduction (P : YamlTree → Prop)
    (hs : ∀ v, P (YamlTree.scalar v))
    (hq : ∀ xs, (∀ t ∈ xs, P t) → P (YamlTree.seq xs))
    (hm : ∀ ps, (∀ p ∈ ps, P p.1 ∧ P p.2) → P (YamlTree.map ps)) :
    ∀ t, P t := by
  have key : ∀ n t, sizeOf t < n → P t := by
    intro n
    induction n with
    | zero => intro t h; omega
    | succ n ih =>
      intro t h
      match t with
      | .scalar v => exact hs v
      | .seq xs =>
        refine hq xs ?_
        intro x hx
        have h1 : sizeOf x < sizeOf xs := List.sizeOf_lt_of_mem hx
        have h2 : sizeOf (YamlTree.seq xs) = 1 + sizeOf xs := by simp
        exact ih x (by omega)
      | .map ps =>
        refine hm ps ?_
        intro p hp
        have h1 : sizeOf p < sizeOf ps := List.sizeOf_lt_of_mem hp
        have h2 : sizeOf (YamlTree.map ps) = 1 + sizeOf ps := by simp
        obtain ⟨k, v⟩ := p
        have h3 : sizeOf (k, v) = 1 + sizeOf k + sizeOf v := by simp
        exact ⟨ih k (by omega), ih v (by omega)⟩
  intro t
  exact key (sizeOf t + 1) t (by omega)

theorem findKeyLoop_eq_pref (key : List Nat) (hk : 0 ∉ key) (l : List YamlEvent) :
    ∀ (scope : Int) (kv i : Nat),
    findKeyLoop key l scope kv i = findKeyPrefLoop key l scope kv i := by
  induction l with
  | nil => intro scope kv i; rfl
  | cons e rest ih =>
    intro scope kv i
    cases e with
    | scalar a t v n p q s =>
      simp only [findKeyLoop, findKeyPrefLoop, strncmpEq_eq_isPrefixOf key hk v]
      split_ifs <;> first | rfl | exact ih ..
    | noEvent => exact ih ..
    | streamStart => exact ih ..
    | streamEnd => exact ih ..
    | documentStart => exact ih ..
    | documentEnd => exact ih ..
    | aliasEvent => exact ih ..
    | sequenceStart a t im st => exact ih ..
    | sequenceEnd => exact ih ..
    | mappingStart a t im st => exact ih ..
    | mappingEnd => exact ih ..


theorem takeToZero_subTree (l : List YamlEvent) :
    ∀ (d : Nat) (node : List YamlEvent), takeToZero l d = some node →
    (∀ e ∈ node, isStructuralEvent e = true) →
    1 ≤ d → d + node.length < U32 →
    subTreeLoop l d = node.map copyEvent := by
  induction l with
  | nil => intro d node h _ _ _; simp [takeToZero] at h
  | cons e rest ih =>
    intro d node h hstruct hd hbound
    cases e with
    | sequenceStart a t im s =>
      simp [takeToZero, isStartEvent, isSeqStartEvent, Option.map_eq_some'] at h
      obtain ⟨node2, h1, h2⟩ := h
      subst h2
      simp only [List.length_cons] at hbound
      have hadd : u32add1 d = d + 1 := u32add1_eq d (by omega)
      have hrec := ih (d + 1) node2 h1
        (fun e2 he2 => hstruct e2 (List.mem_cons_of_mem _ he2)) (by omega) (by omega)
      simp [subTreeLoop, hadd, hrec]
    | mappingStart a t im s =>
      simp [takeToZero, isStartEvent, isMapStartEvent, isSeqStartEvent,
        Option.map_eq_some'] at h
      obtain ⟨node2, h1, h2⟩ := h
      subst h2
      simp only [List.length_cons] at hbound
      have hadd : u32add1 d = d + 1 := u32add1_eq d (by omega)
      have hrec := ih (d + 1) node2 h1
        (fun e2 he2 => hstruct e2 (List.mem_cons_of_mem _ he2)) (by omega) (by omega)
      simp [subTreeLoop, hadd, hrec]
    | sequenceEnd =>
      simp [takeToZero, isStartEvent, isSeqStartEvent, isMapStartEvent, isEndEvent] at h
      by_cases hd1 : d = 1
      · subst hd1
        rw [if_pos rfl] at h
        cases h
        have hsub : u32sub1 1 = 0 := by unfold u32sub1 U32; omega
        simp [subTreeLoop, hsub]
      · rw [if_neg hd1, Option.map_eq_some'] at h
        obtain ⟨node2, h1, h2⟩ := h
        subst h2
        simp only [List.length_cons] at hbound
        have hsub : u32sub1 d = d - 1 := u32sub1_eq d hd (by omega)
        have hne : ¬(d - 1 = 0) := by omega
        have hrec := ih (d - 1) node2 h1
          (fun e2 he2 => hstruct e2 (List.mem_cons_of_mem _ he2)) (by omega) (by omega)
        simp [subTreeLoop, hsub, hne, hrec]
    | mappingEnd =>
      simp [takeToZero, isStartEvent, isSeqStartEvent, isMapStartEvent, isEndEvent] at h
      by_cases hd1 : d = 1
      · subst hd1
        rw [if_pos rfl] at h
        cases h
        have hsub : u32sub1 1 = 0 := by unfold u32sub1 U32; omega
        simp [subTreeLoop, hsub]
      · rw [if_neg hd1, Option.map_eq_some'] at h
        obtain ⟨node2, h1, h2⟩ := h
        subst h2
        simp only [List.length_cons] at hbound
        have hsub : u32sub1 d = d - 1 := u32sub1_eq d hd (by omega)
        have hne : ¬(d - 1 = 0) := by omega
        have hrec := ih (d - 1) node2 h1
          (fun e2 he2 => hstruct e2 (List.mem_cons_of_mem _ he2)) (by omega) (by omega)
        simp [subTreeLoop, hsub, hne, hrec]
    | scalar a t v n p q s =>
      simp [takeToZero, isStartEvent, isSeqStartEvent, isMapStartEvent, isEndEvent,
        Option.map_eq_some'] at h
      obtain ⟨node2, h1, h2⟩ := h
      subst h2
      simp only [List.length_cons] at hbound
      have hne : ¬(d = 0) := by omega
      have hrec := ih d node2 h1
        (fun e2 he2 => hstruct e2 (List.mem_cons_of_mem _ he2)) hd (by omega)
      simp [subTreeLoop, hne, hrec]
    | noEvent =>
      simp [takeToZero, isStartEvent, isSeqStartEvent, isMapStartEvent, isEndEvent,
        Option.map_eq_some'] at h
      obtain ⟨node2, h1, h2⟩ := h
      have hmem := hstruct .noEvent (h2 ▸ List.mem_cons_self _ _)
      simp [isStructuralEvent, isScalarEvent, isStartEvent, isSeqStartEvent,
        isMapStartEvent, isEndEvent] at hmem
    | streamStart =>
      simp [takeToZero, isStartEvent, isSeqStartEvent, isMapStartEvent, isEndEvent,
        Option.map_eq_some'] at h
      obtain ⟨node2, h1, h2⟩ := h
      have hmem := hstruct .streamStart (h2 ▸ List.mem_cons_self _ _)
      simp [isStructuralEvent, isScalarEvent, isStartEvent, isSeqStartEvent,
        isMapStartEvent, isEndEvent] at hmem
    | streamEnd =>
      simp [takeToZero, isStartEvent, isSeqStartEvent, isMapStartEvent, isEndEvent,
        Option.map_eq_some'] at h
      obtain ⟨node2, h1, h2⟩ := h
      have hmem := hstruct .streamEnd (h2 ▸ List.mem_cons_self _ _)
      simp [isStructuralEvent, isScalarEvent, isStartEvent, isSeqStartEvent,
        isMapStartEvent, isEndEvent] at hmem
    | documentStart =>
      simp [takeToZero, isStartEvent, isSeqStartEvent, isMapStartEvent, isEndEvent,
        Option.map_eq_some'] at h
      obtain ⟨node2, h1, h2⟩ := h
      have hmem := hstruct .documentStart (h2 ▸ List.mem_cons_self _ _)
      simp [isStructuralEvent, isScalarEvent, isStartEvent, isSeqStartEvent,
        isMapStartEvent, isEndEvent] at hmem
    | documentEnd =>
      simp [takeToZero, isStartEvent, isSeqStartEvent, isMapStartEvent, isEndEvent,
        Option.map_eq_some'] at h
      obtain ⟨node2, h1, h2⟩ := h
      have hmem := hstruct .documentEnd (h2 ▸ List.mem_cons_self _ _)
      simp [isStructuralEvent, isScalarEvent, isStartEvent, isSeqStartEvent,
        isMapStartEvent, isEndEvent] at hmem
    | aliasEvent =>
      simp [takeToZero, isStartEvent, isSeqStartEvent, isMapStartEvent, isEndEvent,
        Option.map_eq_some'] at h
      obtain ⟨node2, h1, h2⟩ := h
      have hmem := hstruct .aliasEvent (h2 ▸ List.mem_cons_self _ _)
      simp [isStructuralEvent, isScalarEvent, isStartEvent, isSeqStartEvent,
        isMapStartEvent, isEndEvent] at hmem

/-- C2: for every event sequence and start index whose front forms a
bounded node in the sense of the spec (a single scalar, or a container
start extending to the matching end, built from structural events of
bounded depth), the subtree extractor re-emits exactly that node's
events — each copied with tag, style and anchor preserved — wrapped
between synthetic StreamStart/DocumentStart and
DocumentEnd/StreamEnd markers. -/
theorem sub_tree_extracts_bounded_node
    (events : List YamlEvent) (loc : Nat) (node : List YamlEvent)
    (hnode : nodeOfSpec (events.drop loc) = some node)
    (hstruct : ∀ e ∈ node, isStructuralEvent e = true)
    (hbound : node.length + 1 < U32) :
    yaml_get_sub_tree_events events loc =
      .streamStart :: .documentStart ::
        (node.map copyEvent ++ [.documentEnd, .streamEnd]) ∧
    ∀ e ∈ node, tagOf (copyEvent e) = tagOf e ∧ styleOf (copyEvent e) = styleOf e ∧
      anchorOf (copyEvent e) = anchorOf e := by
  refine ⟨?_, fun e _ => copyEvent_meta e⟩
  unfold yaml_get_sub_tree_events
  have hmain : subTreeLoop (events.drop loc) 0 = node.map copyEvent := by
    cases hin : events.drop loc with
    | nil => rw [hin] at hnode; simp [nodeOfSpec] at hnode
    | cons e rest =>
      rw [hin] at hnode
      cases e with
      | scalar a t v n p q s =>
        simp [nodeOfSpec, isScalarEvent] at hnode
        subst hnode
        simp [subTreeLoop]
      | sequenceStart a t im s =>
        simp [nodeOfSpec, isScalarEvent, isStartEvent, isSeqStartEvent,
          Option.map_eq_some'] at hnode
        obtain ⟨node2, h1, h2⟩ := hnode
        subst h2
        simp only [List.length_cons] at hbound
        have hadd : u32add1 0 = 1 := by unfold u32add1 U32; omega
        have hrec := takeToZero_subTree rest 1 node2 h1
          (fun e2 he2 => hstruct e2 (List.mem_cons_of_mem _ he2)) (by omega) (by omega)
        simp [subTreeLoop, hadd, hrec]
      | mappingStart a t im s =>
        simp [nodeOfSpec, isScalarEvent, isStartEvent, isSeqStartEvent, isMapStartEvent,
          Option.map_eq_some'] at hnode
        obtain ⟨node2, h1, h2⟩ := hnode
        subst h2
        simp only [List.length_cons] at hbound
        have hadd : u32add1 0 = 1 := by unfold u32add1 U32; omega
        have hrec := takeToZero_subTree rest 1 node2 h1
          (fun e2 he2 => hstruct e2 (List.mem_cons_of_mem _ he2)) (by omega) (by omega)
        simp [subTreeLoop, hadd, hrec]
      | noEvent =>
        simp [nodeOfSpec, isScalarEvent, isStartEvent, isSeqStartEvent,
          isMapStartEvent] at hnode
      | streamStart =>
        simp [nodeOfSpec, isScalarEvent, isStartEvent, isSeqStartEvent,
          isMapStartEvent] at hnode
      | streamEnd =>
        simp [nodeOfSpec, isScalarEvent, isStartEvent, isSeqStartEvent,
          isMapStartEvent] at hnode
      | documentStart =>
        simp [nodeOfSpec, isScalarEvent, isStartEvent, isSeqStartEvent,
          isMapStartEvent] at hnode
      | documentEnd =>
        simp [nodeOfSpec, isScalarEvent, isStartEvent, isSeqStartEvent,
          isMapStartEvent] at hnode
      | aliasEvent =>
        simp [nodeOfSpec, isScalarEvent, isStartEvent, isSeqStartEvent,
          isMapStartEvent] at hnode
      | sequenceEnd =>
        simp [nodeOfSpec, isScalarEvent, isStartEvent, isSeqStartEvent,
          isMapStartEvent, isEndEvent] at hnode
      | mappingEnd =>
        simp [nodeOfSpec, isScalarEvent, isStartEvent, isSeqStartEvent,
          isMapStartEvent, isEndEvent] at hnode
  rw [hmain]

/-- Witness for C2 on the concrete document `abc: 1`. -/
theorem sub_tree_extracts_bounded_node_witness :
    nodeOfSpec (ex1.drop 2) = some exNode ∧
    (∀ e ∈ exNode, isStructuralEvent e = true) ∧
    exNode.length + 1 < U32 ∧
    (yaml_get_sub_tree_events ex1 2 =
      .streamStart :: .documentStart ::
        (exNode.map copyEvent ++ [.documentEnd, .streamEnd]) ∧
     ∀ e ∈ exNode, tagOf (copyEvent e) = tagOf e ∧ styleOf (copyEvent e) = styleOf e ∧
       anchorOf (copyEvent e) = anchorOf e) :=
  ⟨by decide, by decide, by decide,
    sub_tree_extracts_bounded_node ex1 2 exNode (by decide) (by decide) (by decide)⟩

/-- C3: on any document whose root event (index 2) is a scalar,
sequence-start or mapping-start, the classifier returns exactly one of
scalar, sequence or mapping, and the classification of the extracted
root node's re-emitted event stream (what re-parsing the canonical
text yields under the black-box emitter/parser round trip) is the
same; for a scalar root the re-emitted root event carries the same
scalar value. -/
theorem classify_round_trip (events : List YamlEvent) (e2 : YamlEvent)
    (h : events.get? 2 = some e2)
    (hkind : (isScalarEvent e2 || isStartEvent e2) = true) :
    ∃ t, yaml_get_object_type events = some t ∧
      (t = scalarTypeText ∨ t = sequenceTypeText ∨ t = mappingTypeText) ∧
      yaml_get_object_type (yaml_get_sub_tree_events events 2) = some t ∧
      ((yaml_get_sub_tree_events events 2).get? 2).bind scalarValueOf = scalarValueOf e2 := by
  obtain ⟨rest, hdrop⟩ := get_some_drop events 2 e2 h
  unfold yaml_get_sub_tree_events
  rw [hdrop]
  cases e2 with
  | scalar a t v n p q s =>
    refine ⟨scalarTypeText, ?_, Or.inl rfl, ?_, ?_⟩
    · unfold yaml_get_object_type
      rw [h]
      rfl
    · simp [yaml_get_object_type, subTreeLoop, copyEvent]
    · simp [subTreeLoop, copyEvent, scalarValueOf]
  | sequenceStart a t im s =>
    refine ⟨sequenceTypeText, ?_, Or.inr (Or.inl rfl), ?_, ?_⟩
    · unfold yaml_get_object_type
      rw [h]
      rfl
    · simp [yaml_get_object_type, subTreeLoop, copyEvent]
    · simp [subTreeLoop, copyEvent, scalarValueOf]
  | mappingStart a t im s =>
    refine ⟨mappingTypeText, ?_, Or.inr (Or.inr rfl), ?_, ?_⟩
    · unfold yaml_get_object_type
      rw [h]
      rfl
    · simp [yaml_get_object_type, subTreeLoop, copyEvent]
    · simp [subTreeLoop, copyEvent, scalarValueOf]
  | noEvent => simp [isScalarEvent, isStartEvent, isSeqStartEvent, isMapStartEvent] at hkind
  | streamStart => simp [isScalarEvent, isStartEvent, isSeqStartEvent, isMapStartEvent] at hkind
  | streamEnd => simp [isScalarEvent, isStartEvent, isSeqStartEvent, isMapStartEvent] at hkind
  | documentStart => simp [isScalarEvent, isStartEvent, isSeqStartEvent, isMapStartEvent] at hkind
  | documentEnd => simp [isScalarEvent, isStartEvent, isSeqStartEvent, isMapStartEvent] at hkind
  | aliasEvent => simp [isScalarEvent, isStartEvent, isSeqStartEvent, isMapStartEvent] at hkind
  | sequenceEnd => simp [isScalarEvent, isStartEvent, isSeqStartEvent, isMapStartEvent] at hkind
  | mappingEnd => simp [isScalarEvent, isStartEvent, isSeqStartEvent, isMapStartEvent] at hkind

/-- Witness for C3 on the scalar document `7`. -/
theorem classify_round_trip_witness :
    exScalarDoc.get? 2 = some (.scalar none none [55] 1 1 0 0) ∧
    (isScalarEvent (.scalar none none [55] 1 1 0 0) ||
      isStartEvent (.scalar none none [55] 1 1 0 0)) = true ∧
    ∃ t, yaml_get_object_type exScalarDoc = some t ∧
      (t = scalarTypeText ∨ t = sequenceTypeText ∨ t = mappingTypeText) ∧
      yaml_get_object_type (yaml_get_sub_tree_events exScalarDoc 2) = some t ∧
      ((yaml_get_sub_tree_events exScalarDoc 2).get? 2).bind scalarValueOf =
        scalarValueOf (.scalar none none [55] 1 1 0 0) :=
  ⟨by decide, by decide,
    classify_round_trip exScalarDoc (.scalar none none [55] 1 1 0 0) (by decide) (by decide)⟩

/-- C1 counterexample: on the document `abc: 1, ab: 2` with query key
`ab`, the code returns index 4 (the value after the scope-0 key `abc`,
matched because `ab` is a byte prefix of `abc`), while the claim's
exact length-and-content matching would return index 6 (the value
after the exactly matching key `ab`); the locator and the claim's
exact-match locator disagree. -/
theorem find_key_prefix_counterexample :
    yaml_find_key_on_root exM [97, 98] = some 4 ∧
    findKeyExactSpec exM [97, 98] = some 6 ∧
    yaml_find_key_on_root exM [97, 98] ≠ findKeyExactSpec exM [97, 98] := by
  decide

/-- C1 amended: the key locator returns the index of the event
following the first scope-0 key-position scalar of which the query key
is a byte-for-byte prefix (`strncmp` over `strlen(key)` bytes), and on
a full scan without such a match it returns the not-found sentinel,
which the public key-path query surfaces as a null result, never as a
raised error. -/
theorem find_key_amended_prefix_semantics (events : List YamlEvent) (key : List Nat)
    (hk : 0 ∉ key) :
    yaml_find_key_on_root events key = findKeyPrefSpec events key ∧
    (yaml_find_key_on_root events key = none →
      yaml_object_field_model events key = none) := by
  constructor
  · exact findKeyLoop_eq_pref key hk events (-1) 0 0
  · intro h
    unfold yaml_object_field_model
    rw [h]

/-- Witness for the amended C1 on the document `abc: 1, ab: 2` with
key `ab`. -/
theorem find_key_amended_witness :
    (0 : Nat) ∉ [97, 98] ∧
    (yaml_find_key_on_root exM [97, 98] = findKeyPrefSpec exM [97, 98] ∧
     (yaml_find_key_on_root exM [97, 98] = none →
       yaml_object_field_model exM [97, 98] = none)) :=
  ⟨by decide, find_key_amended_prefix_semantics exM [97, 98] (by decide)⟩

/-- C5: the type classifier depends only on the event at index 2; a
scalar there yields `scalar`, a sequence start `sequence`, a mapping
start `mapping`, and any other event kind yields the distinct
`Unknown Type` sentinel, never one of the three real type names. -/
theorem object_type_reads_index_two (events : List YamlEvent) (e2 : YamlEvent)
    (h : events.get? 2 = some e2) :
    (∀ events2 : List YamlEvent, events2.get? 2 = some e2 →
      yaml_get_object_type events2 = yaml_get_object_type events) ∧
    (isScalarEvent e2 = true → yaml_get_object_type events = some scalarTypeText) ∧
    (isSeqStartEvent e2 = true → yaml_get_object_type events = some sequenceTypeText) ∧
    (isMapStartEvent e2 = true → yaml_get_object_type events = some mappingTypeText) ∧
    (isScalarEvent e2 = false → isSeqStartEvent e2 = false → isMapStartEvent e2 = false →
      yaml_get_object_type events = some unknownTypeText) ∧
    unknownTypeText ≠ scalarTypeText ∧ unknownTypeText ≠ sequenceTypeText ∧
      unknownTypeText ≠ mappingTypeText := by
  refine ⟨?_, ?_, ?_, ?_, ?_, by decide, by decide, by decide⟩
  · intro events2 h2
    unfold yaml_get_object_type
    rw [h, h2]
  · intro hs
    unfold yaml_get_object_type
    rw [h]
    cases e2 <;> simp [isScalarEvent] at hs ⊢
  · intro hs
    unfold yaml_get_object_type
    rw [h]
    cases e2 <;> simp [isSeqStartEvent] at hs ⊢
  · intro hs
    unfold yaml_get_object_type
    rw [h]
    cases e2 <;> simp [isMapStartEvent] at hs ⊢
  · intro h1 h2 h3
    unfold yaml_get_object_type
    rw [h]
    cases e2 <;>
      simp [isScalarEvent, isSeqStartEvent, isMapStartEvent] at h1 h2 h3 ⊢

/-- Witness for C5 on the sequence document `- a`. -/
theorem object_type_reads_index_two_witness :
    ex8.get? 2 = some (.sequenceStart none none 1 0) ∧
    ((∀ events2 : List YamlEvent, events2.get? 2 = some (.sequenceStart none none 1 0) →
      yaml_get_object_type events2 = yaml_get_object_type ex8) ∧
    (isScalarEvent (.sequenceStart none none 1 0) = true →
      yaml_get_object_type ex8 = some scalarTypeText) ∧
    (isSeqStartEvent (.sequenceStart none none 1 0) = true →
      yaml_get_object_type ex8 = some sequenceTypeText) ∧
    (isMapStartEvent (.sequenceStart none none 1 0) = true →
      yaml_get_object_type ex8 = some mappingTypeText) ∧
    (isScalarEvent (.sequenceStart none none 1 0) = false →
      isSeqStartEvent (.sequenceStart none none 1 0) = false →
      isMapStartEvent (.sequenceStart none none 1 0) = false →
      yaml_get_object_type ex8 = some unknownTypeText) ∧
    unknownTypeText ≠ scalarTypeText ∧ unknownTypeText ≠ sequenceTypeText ∧
      unknownTypeText ≠ mappingTypeText) :=
  ⟨by decide, object_type_reads_index_two ex8 (.sequenceStart none none 1 0) (by decide)⟩

theorem getObjectType_mem (events : List YamlEvent) (t : List Nat)
    (h : yaml_get_object_type events = some t) :
    t = scalarTypeText ∨ t = sequenceTypeText ∨ t = mappingTypeText ∨
      t = unknownTypeText := by
  unfold yaml_get_object_type at h
  cases hg : events.get? 2 with
  | none => rw [hg] at h; simp at h
  | some e =>
    rw [hg] at h
    simp only [Option.map_some'] at h
    cases h
    cases e <;> simp

/-- C9: invoking the length query on a document whose root event is
not a sequence start yields the NotASequenceError channel and never an
integer count — the root-type check via the classifier gates the
counting. -/
theorem sequence_length_requires_sequence_root (events : List YamlEvent) (t : List Nat)
    (h1 : yaml_get_object_type events = some t) (h2 : t ≠ sequenceTypeText) :
    yaml_sequence_length events = .notASequence ∧
    ∀ n : Int, yaml_sequence_length events ≠ .ok n := by
  have hfail : sequenceCheckPasses t = false := by
    rcases getObjectType_mem events t h1 with h | h | h | h <;> subst h
    · decide
    · exact absurd rfl h2
    · decide
    · decide
  have hres : yaml_sequence_length events = .notASequence := by
    unfold yaml_sequence_length
    rw [h1]
    simp [hfail]
  exact ⟨hres, fun n hn => by rw [hres] at hn; cases hn⟩

/-- Witness for C9 on the mapping document `abc: 1`. -/
theorem sequence_length_requires_sequence_root_witness :
    yaml_get_object_type ex1 = some mappingTypeText ∧
    mappingTypeText ≠ sequenceTypeText ∧
    (yaml_sequence_length ex1 = .notASequence ∧
     ∀ n : Int, yaml_sequence_length ex1 ≠ .ok n) :=
  ⟨by decide, by decide,
    sequence_length_requires_sequence_root ex1 mappingTypeText (by decide) (by decide)⟩

/-- C10 fails on the code: for the empty input (a valid YAML stream
with zero documents, for which the black-box parser yields exactly
StreamStart then StreamEnd), `pg_parse_yaml` reports success while
storing only two events, the event at index 1 is not DocumentStart,
and the classifier's unconditional read of index 2 falls out of
bounds — contradicting the asserts in `yaml_get_object_type` and
`yaml_count_array_size`. -/
theorem pg_parse_yaml_empty_stream_bug :
    pg_parse_yaml_model (.ok [.streamStart, .streamEnd]) =
      .ok [.streamStart, .streamEnd] ∧
    ([YamlEvent.streamStart, .streamEnd]).length < 3 ∧
    ([YamlEvent.streamStart, .streamEnd]).get? 1 ≠ some .documentStart ∧
    yaml_get_object_type [.streamStart, .streamEnd] = none := by
  refine ⟨rfl, by decide, by decide, rfl⟩

theorem emitAll_safe (chunks : List (List Nat)) :
    ∀ b : EmitBuffer, (∀ c ∈ chunks, c.length ≤ lowWaterMark) →
    b.written.length + lowWaterMark ≤ b.allocated →
    ∃ b2, emitAll chunks b = some b2 ∧ b2.written = b.written ++ chunks.join := by
  induction chunks with
  | nil => intro b _ _; exact ⟨b, rfl, by simp⟩
  | cons c cs ih =>
    intro b hc hinv
    have hcl : c.length ≤ lowWaterMark := hc c (by simp)
    have hwrite : writeChunk b c = some ⟨b.written ++ c, b.allocated⟩ := by
      unfold writeChunk
      rw [if_pos (by omega)]
    have hgrow : (growIfLow ⟨b.written ++ c, b.allocated⟩).written = b.written ++ c ∧
        (growIfLow ⟨b.written ++ c, b.allocated⟩).written.length + lowWaterMark ≤
          (growIfLow ⟨b.written ++ c, b.allocated⟩).allocated := by
      have hl : (b.written ++ c).length ≤ b.allocated := by
        simp only [List.length_append]
        omega
      have hlw : lowWaterMark ≤ b.allocated := by omega
      unfold growIfLow
      by_cases hcond :
          (⟨b.written ++ c, b.allocated⟩ : EmitBuffer).allocated -
            (⟨b.written ++ c, b.allocated⟩ : EmitBuffer).written.length < lowWaterMark
      · rw [if_pos hcond]
        exact ⟨rfl, by simp only []; omega⟩
      · rw [if_neg hcond]
        simp only [] at hcond
        exact ⟨rfl, by simp only []; omega⟩
    obtain ⟨b3, h3, hw3⟩ :=
      ih (growIfLow ⟨b.written ++ c, b.allocated⟩)
        (fun c2 hc2 => hc c2 (List.mem_cons_of_mem _ hc2)) hgrow.2
    refine ⟨b3, ?_, ?_⟩
    · unfold emitAll
      rw [hwrite]
      exact h3
    · rw [hw3, hgrow.1]
      simp [List.append_assoc]

/-- C6: starting from the emitter-default 16 KiB allocation, with the
capacity doubled whenever free space falls below the fixed 16 KiB
low-water mark after each event, no event write (of at most the
low-water mark many bytes) ever overflows the buffer, growth preserves
every byte already written, and the final output is exactly the
concatenation of the emitted chunks with length equal to the total
bytes emitted. -/
theorem buffer_growth_preserves_output (chunks : List (List Nat))
    (h : ∀ c ∈ chunks, c.length ≤ lowWaterMark) :
    ∃ b, emitAll chunks initialEmitBuffer = some b ∧
      b.written = chunks.join ∧
      b.written.length = (chunks.map List.length).sum := by
  obtain ⟨b, h1, h2⟩ := emitAll_safe chunks initialEmitBuffer h
    (by simp [initialEmitBuffer, lowWaterMark])
  have hw : b.written = chunks.join := by simpa using h2
  refine ⟨b, h1, hw, ?_⟩
  rw [hw]
  simp [List.length_join]

/-- Witness for C6 on a three-byte event chunk. -/
theorem buffer_growth_preserves_output_witness :
    (∀ c ∈ ([[1, 2, 3]] : List (List Nat)), c.length ≤ lowWaterMark) ∧
    ∃ b, emitAll [[1, 2, 3]] initialEmitBuffer = some b ∧
      b.written = ([[1, 2, 3]] : List (List Nat)).join ∧
      b.written.length = (([[1, 2, 3]] : List (List Nat)).map List.length).sum :=
  ⟨by decide, buffer_growth_preserves_output [[1, 2, 3]] (by decide)⟩

/-- C7: the extraction result distinguishes absence from emptiness —
when nothing was written it is the null sentinel, distinct from an
empty string; otherwise it is exactly the emitted bytes with the fixed
14-byte synthetic prologue removed from the front. -/
theorem sub_tree_null_vs_prologue_strip (chunks : List (List Nat))
    (h : ∀ c ∈ chunks, c.length ≤ lowWaterMark) :
    (chunks.join = [] → yamlSubTreeText chunks = some none) ∧
    (chunks.join ≠ [] → yamlSubTreeText chunks = some (some (chunks.join.drop 14))) ∧
    (none : Option (List Nat)) ≠ some [] := by
  obtain ⟨b, h1, h2⟩ := emitAll_safe chunks initialEmitBuffer h
    (by simp [initialEmitBuffer, lowWaterMark])
  have hw : b.written = chunks.join := by simpa using h2
  refine ⟨?_, ?_, by simp⟩
  · intro hj
    unfold yamlSubTreeText
    rw [h1]
    simp [hw, hj]
  · intro hj
    unfold yamlSubTreeText
    rw [h1]
    have hne : ¬(chunks.join.length = 0) := by
      rw [List.length_eq_zero]
      exact hj
    simp only [hw, if_neg hne]

/-- Witness for C7 on a sixteen-byte emission. -/
theorem sub_tree_null_vs_prologue_strip_witness :
    (∀ c ∈ ([[0, 1, 2, 3, 4, 5, 6, 7, 8, 9, 10, 11, 12, 13, 14, 15]] : List (List Nat)),
      c.length ≤ lowWaterMark) ∧
    ((([[0, 1, 2, 3, 4, 5, 6, 7, 8, 9, 10, 11, 12, 13, 14, 15]] : List (List Nat)).join = [] →
      yamlSubTreeText [[0, 1, 2, 3, 4, 5, 6, 7, 8, 9, 10, 11, 12, 13, 14, 15]] = some none) ∧
     (([[0, 1, 2, 3, 4, 5, 6, 7, 8, 9, 10, 11, 12, 13, 14, 15]] : List (List Nat)).join ≠ [] →
      yamlSubTreeText [[0, 1, 2, 3, 4, 5, 6, 7, 8, 9, 10, 11, 12, 13, 14, 15]] =
        some (some (([[0, 1, 2, 3, 4, 5, 6, 7, 8, 9, 10, 11, 12, 13, 14, 15]] :
          List (List Nat)).join.drop 14))) ∧
     (none : Option (List Nat)) ≠ some []) :=
  ⟨by decide,
    sub_tree_null_vs_prologue_strip [[0, 1, 2, 3, 4, 5, 6, 7, 8, 9, 10, 11, 12, 13, 14, 15]]
      (by decide)⟩

theorem countTrees_adds (xs : List YamlTree)
    (H : ∀ t ∈ xs, ∀ (rest : List YamlEvent) (scope count : Int), 1 ≤ scope →
      countLoop (eventsOfTree t ++ rest) scope count =
      countLoop rest scope (if scope = 1 then count + 1 else count)) :
    ∀ (rest : List YamlEvent) (scope count : Int), 1 ≤ scope →
    countLoop (eventsOfTrees xs ++ rest) scope count =
    countLoop rest scope (count + if scope = 1 then (xs.length : Int) else 0) := by
  induction xs with
  | nil =>
    intro rest scope count h
    simp [eventsOfTrees]
  | cons t ts ih =>
    intro rest scope count h
    rw [eventsOfTrees, List.append_assoc]
    rw [H t (List.mem_cons_self _ _) _ scope count h]
    rw [ih (fun u hu => H u (List.mem_cons_of_mem _ hu)) _ scope _ h]
    congr 1
    by_cases h1 : scope = 1
    · simp only [h1, if_pos rfl, List.length_cons]
      push_cast
      ring
    · simp [h1]

theorem countPairs_adds (ps : List (YamlTree × YamlTree))
    (H : ∀ p ∈ ps,
      (∀ (rest : List YamlEvent) (scope count : Int), 1 ≤ scope →
        countLoop (eventsOfTree p.1 ++ rest) scope count =
        countLoop rest scope (if scope = 1 then count + 1 else count)) ∧
      (∀ (rest : List YamlEvent) (scope count : Int), 1 ≤ scope →
        countLoop (eventsOfTree p.2 ++ rest) scope count =
        countLoop rest scope (if scope = 1 then count + 1 else count))) :
    ∀ (rest : List YamlEvent) (scope count : Int), 1 ≤ scope →
    countLoop (eventsOfPairs ps ++ rest) scope count =
    countLoop rest scope (count + if scope = 1 then 2 * (ps.length : Int) else 0) := by
  induction ps with
  | nil =>
    intro rest scope count h
    simp [eventsOfPairs]
  | cons p ps ih =>
    obtain ⟨k, v⟩ := p
    intro rest scope count h
    rw [eventsOfPairs, List.append_assoc, List.append_assoc]
    rw [(H (k, v) (List.mem_cons_self _ _)).1 _ scope count h]
    rw [(H (k, v) (List.mem_cons_self _ _)).2 _ scope _ h]
    rw [ih (fun u hu => H u (List.mem_cons_of_mem _ hu)) _ scope _ h]
    congr 1
    by_cases h1 : scope = 1
    · simp only [h1, if_pos rfl, List.length_cons]
      push_cast
      ring
    · simp [h1]

theorem countTree_adds (t : YamlTree) :
    ∀ (rest : List YamlEvent) (scope count : Int), 1 ≤ scope →
    countLoop (eventsOfTree t ++ rest) scope count =
    countLoop rest scope (if scope = 1 then count + 1 else count) := by
  induction t using YamlTree.customInduction with
  | hs v =>
    intro rest scope count h
    have h0 : ¬((scope : Int) = 0) := by omega
    simp [eventsOfTree, countLoop, h0]
  | hq xs H =>
    intro rest scope count h
    have h0 : ¬(scope + 1 = (0 : Int)) := by omega
    have h1 : ¬(scope + 1 = (1 : Int)) := by omega
    have h2 : ¬((scope : Int) = 0) := by omega
    rw [eventsOfTree, List.cons_append, countLoop]
    simp only [if_neg h0]
    rw [List.append_assoc]
    rw [countTrees_adds xs H _ (scope + 1) _ (by omega)]
    rw [List.singleton_append, countLoop]
    simp only [if_neg h1, add_zero, add_sub_cancel_right, if_neg h2]
  | hm ps H =>
    intro rest scope count h
    have h0 : ¬(scope + 1 = (0 : Int)) := by omega
    have h1 : ¬(scope + 1 = (1 : Int)) := by omega
    have h2 : ¬((scope : Int) = 0) := by omega
    rw [eventsOfTree, List.cons_append, countLoop]
    simp only [if_neg h0]
    rw [List.append_assoc]
    rw [countPairs_adds ps H _ (scope + 1) _ (by omega)]
    rw [List.singleton_append, countLoop]
    simp only [if_neg h1, add_zero, add_sub_cancel_right, if_neg h2]

/-- C4: for every well-formed document whose root is a sequence with n
direct elements (scalars or nested containers, the latter counted once
without recursing), the sequence counter returns exactly n. -/
theorem count_array_size_direct_elements (xs : List YamlTree) :
    yaml_count_array_size (docEvents (.seq xs)) = (xs.length : Int) := by
  unfold yaml_count_array_size docEvents
  rw [List.drop_succ_cons, List.drop_succ_cons, List.drop_zero]
  rw [eventsOfTree, List.cons_append, countLoop]
  simp only [if_neg (by omega : ¬((0 : Int) + 1 = 0))]
  rw [List.append_assoc]
  rw [countTrees_adds xs (fun t _ => countTree_adds t) _ ((0 : Int) + 1) _ (by omega)]
  rw [List.singleton_append, countLoop]
  simp only [if_pos (by omega : (0 : Int) + 1 - 1 = 0)]
  simp

theorem subTreeTrees_skip (xs : List YamlTree)
    (H : ∀ t ∈ xs, ∀ (rest : List YamlEvent) (d : Nat), 1 ≤ d → d + depthT t < U32 →
      subTreeLoop (eventsOfTree t ++ rest) d =
        (eventsOfTree t).map copyEvent ++ subTreeLoop rest d) :
    ∀ (rest : List YamlEvent) (d : Nat), 1 ≤ d → d + depthL xs < U32 →
    subTreeLoop (eventsOfTrees xs ++ rest) d =
      (eventsOfTrees xs).map copyEvent ++ subTreeLoop rest d := by
  induction xs with
  | nil =>
    intro rest d h1 h2
    simp [eventsOfTrees]
  | cons t ts ih =>
    intro rest d h1 h2
    have hdt : d + depthT t < U32 := by
      have hle : depthT t ≤ depthL (t :: ts) := by
        rw [depthL]
        exact le_max_left _ _
      omega
    have hdl : d + depthL ts < U32 := by
      have hle : depthL ts ≤ depthL (t :: ts) := by
        rw [depthL]
        exact le_max_right _ _
      omega
    rw [eventsOfTrees, List.append_assoc]
    rw [H t (List.mem_cons_self _ _) _ d h1 hdt]
    rw [ih (fun u hu => H u (List.mem_cons_of_mem _ hu)) _ d h1 hdl]
    simp [List.map_append, List.append_assoc]

theorem subTreePairs_skip (ps : List (YamlTree × YamlTree))
    (H : ∀ p ∈ ps,
      (∀ (rest : List YamlEvent) (d : Nat), 1 ≤ d → d + depthT p.1 < U32 →
        subTreeLoop (eventsOfTree p.1 ++ rest) d =
          (eventsOfTree p.1).map copyEvent ++ subTreeLoop rest d) ∧
      (∀ (rest : List YamlEvent) (d : Nat), 1 ≤ d → d + depthT p.2 < U32 →
        subTreeLoop (eventsOfTree p.2 ++ rest) d =
          (eventsOfTree p.2).map copyEvent ++ subTreeLoop rest d)) :
    ∀ (rest : List YamlEvent) (d : Nat), 1 ≤ d → d + depthP ps < U32 →
    subTreeLoop (eventsOfPairs ps ++ rest) d =
      (eventsOfPairs ps).map copyEvent ++ subTreeLoop rest d := by
  induction ps with
  | nil =>
    intro rest d h1 h2
    simp [eventsOfPairs]
  | cons p ps ih =>
    obtain ⟨k, v⟩ := p
    intro rest d h1 h2
    have hdk : d + depthT k < U32 := by
      have hle : depthT k ≤ depthP ((k, v) :: ps) := by
        rw [depthP]
        exact le_trans (le_max_left _ _) (le_max_left _ _)
      omega
    have hdv : d + depthT v < U32 := by
      have hle : depthT v ≤ depthP ((k, v) :: ps) := by
        rw [depthP]
        exact le_trans (le_max_right _ _) (le_max_left _ _)
      omega
    have hdp : d + depthP ps < U32 := by
      have hle : depthP ps ≤ depthP ((k, v) :: ps) := by
        rw [depthP]
        exact le_max_right _ _
      omega
    rw [eventsOfPairs, List.append_assoc, List.append_assoc]
    rw [(H (k, v) (List.mem_cons_self _ _)).1 _ d h1 hdk]
    rw [(H (k, v) (List.mem_cons_self _ _)).2 _ d h1 hdv]
    rw [ih (fun u hu => H u (List.mem_cons_of_mem _ hu)) _ d h1 hdp]
    simp [List.map_append, List.append_assoc]

theorem subTree_skips (t : YamlTree) :
    ∀ (rest : List YamlEvent) (d : Nat), 1 ≤ d → d + depthT t < U32 →
    subTreeLoop (eventsOfTree t ++ rest) d =
      (eventsOfTree t).map copyEvent ++ subTreeLoop rest d := by
  induction t using YamlTree.customInduction with
  | hs v =>
    intro rest d h1 h2
    have h0 : ¬(d = 0) := by omega
    simp [eventsOfTree, subTreeLoop, h0, copyEvent]
  | hq xs H =>
    intro rest d h1 h2
    rw [depthT] at h2
    have hadd : u32add1 d = d + 1 := u32add1_eq d (by omega)
    have hsub : u32sub1 (d + 1) = d := by
      rw [u32sub1_eq (d + 1) (by omega) (by omega)]
      omega
    have hne : ¬(d = 0) := by omega
    rw [eventsOfTree, List.cons_append]
    simp only [subTreeLoop, hadd]
    rw [List.append_assoc]
    rw [subTreeTrees_skip xs H _ (d + 1) (by omega) (by omega)]
    rw [List.singleton_append]
    simp only [subTreeLoop, hsub, if_neg hne]
    simp [copyEvent, List.map_append, List.append_assoc]
  | hm ps H =>
    intro rest d h1 h2
    rw [depthT] at h2
    have hadd : u32add1 d = d + 1 := u32add1_eq d (by omega)
    have hsub : u32sub1 (d + 1) = d := by
      rw [u32sub1_eq (d + 1) (by omega) (by omega)]
      omega
    have hne : ¬(d = 0) := by omega
    rw [eventsOfTree, List.cons_append]
    simp only [subTreeLoop, hadd]
    rw [List.append_assoc]
    rw [subTreePairs_skip ps H _ (d + 1) (by omega) (by omega)]
    rw [List.singleton_append]
    simp only [subTreeLoop, hsub, if_neg hne]
    simp [copyEvent, List.map_append, List.append_assoc]

theorem subTree_node (t : YamlTree) (rest : List YamlEvent)
    (hd : depthT t + 1 < U32) :
    subTreeLoop (eventsOfTree t ++ rest) 0 = (eventsOfTree t).map copyEvent := by
  cases t with
  | scalar v => simp [eventsOfTree, subTreeLoop, copyEvent]
  | seq xs =>
    rw [depthT] at hd
    have hadd : u32add1 0 = 1 := by unfold u32add1 U32; omega
    have hsub : u32sub1 1 = 0 := by unfold u32sub1 U32; omega
    rw [eventsOfTree, List.cons_append]
    simp only [subTreeLoop, hadd]
    rw [List.append_assoc]
    rw [subTreeTrees_skip xs (fun u _ => subTree_skips u) _ 1 (by omega) (by omega)]
    rw [List.singleton_append]
    simp only [subTreeLoop, hsub, if_pos rfl]
    simp [copyEvent, List.map_append, List.append_assoc]
  | map ps =>
    rw [depthT] at hd
    have hadd : u32add1 0 = 1 := by unfold u32add1 U32; omega
    have hsub : u32sub1 1 = 0 := by unfold u32sub1 U32; omega
    rw [eventsOfTree, List.cons_append]
    simp only [subTreeLoop, hadd]
    rw [List.append_assoc]
    rw [subTreePairs_skip ps (fun u _ => ⟨subTree_skips u.1, subTree_skips u.2⟩) _ 1
      (by omega) (by omega)]
    rw [List.singleton_append]
    simp only [subTreeLoop, hsub, if_pos rfl]
    simp [copyEvent, List.map_append, List.append_assoc]

theorem seqElemsTrees_skip (A : List YamlEvent) (xs : List YamlTree)
    (H : ∀ t ∈ xs, ∀ (rest : List YamlEvent) (scope : Int) (i : Nat), 1 ≤ scope →
      seqElemsLoop A (eventsOfTree t ++ rest) scope i =
      seqElemsLoop A rest scope (i + (eventsOfTree t).length)) :
    ∀ (rest : List YamlEvent) (scope : Int) (i : Nat), 1 ≤ scope →
    seqElemsLoop A (eventsOfTrees xs ++ rest) scope i =
    seqElemsLoop A rest scope (i + (eventsOfTrees xs).length) := by
  induction xs with
  | nil =>
    intro rest scope i h
    simp [eventsOfTrees]
  | cons t ts ih =>
    intro rest scope i h
    rw [eventsOfTrees, List.append_assoc]
    rw [H t (List.mem_cons_self _ _) _ scope i h]
    rw [ih (fun u hu => H u (List.mem_cons_of_mem _ hu)) _ scope _ h]
    congr 1
    simp [List.length_append]
    omega

theorem seqElemsPairs_skip (A : List YamlEvent) (ps : List (YamlTree × YamlTree))
    (H : ∀ p ∈ ps,
      (∀ (rest : List YamlEvent) (scope : Int) (i : Nat), 1 ≤ scope →
        seqElemsLoop A (eventsOfTree p.1 ++ rest) scope i =
        seqElemsLoop A rest scope (i + (eventsOfTree p.1).length)) ∧
      (∀ (rest : List YamlEvent) (scope : Int) (i : Nat), 1 ≤ scope →
        seqElemsLoop A (eventsOfTree p.2 ++ rest) scope i =
        seqElemsLoop A rest scope (i + (eventsOfTree p.2).length))) :
    ∀ (rest : List YamlEvent) (scope : Int) (i : Nat), 1 ≤ scope →
    seqElemsLoop A (eventsOfPairs ps ++ rest) scope i =
    seqElemsLoop A rest scope (i + (eventsOfPairs ps).length) := by
  induction ps with
  | nil =>
    intro rest scope i h
    simp [eventsOfPairs]
  | cons p ps ih =>
    obtain ⟨k, v⟩ := p
    intro rest scope i h
    rw [eventsOfPairs, List.append_assoc, List.append_assoc]
    rw [(H (k, v) (List.mem_cons_self _ _)).1 _ scope i h]
    rw [(H (k, v) (List.mem_cons_self _ _)).2 _ scope _ h]
    rw [ih (fun u hu => H u (List.mem_cons_of_mem _ hu)) _ scope _ h]
    congr 1
    simp [List.length_append]
    omega

theorem seqElemsTree_skip (A : List YamlEvent) (t : YamlTree) :
    ∀ (rest : List YamlEvent) (scope : Int) (i : Nat), 1 ≤ scope →
    seqElemsLoop A (eventsOfTree t ++ rest) scope i =
    seqElemsLoop A rest scope (i + (eventsOfTree t).length) := by
  induction t using YamlTree.customInduction with
  | hs v =>
    intro rest scope i h
    have h0 : ¬(scope = (0 : Int)) := by omega
    simp [eventsOfTree, seqElemsLoop, h0]
  | hq xs H =>
    intro rest scope i h
    have h0 : ¬(scope = (0 : Int)) := by omega
    rw [eventsOfTree, List.cons_append]
    simp only [seqElemsLoop, if_neg h0, List.nil_append]
    rw [List.append_assoc]
    rw [seqElemsTrees_skip A xs H _ (scope + 1) _ (by omega)]
    rw [List.singleton_append]
    simp only [seqElemsLoop, add_sub_cancel_right]
    congr 1
    simp [List.length_append]
    omega
  | hm ps H =>
    intro rest scope i h
    have h0 : ¬(scope = (0 : Int)) := by omega
    rw [eventsOfTree, List.cons_append]
    simp only [seqElemsLoop, if_neg h0, List.nil_append]
    rw [List.append_assoc]
    rw [seqElemsPairs_skip A ps H _ (scope + 1) _ (by omega)]
    rw [List.singleton_append]
    simp only [seqElemsLoop, add_sub_cancel_right]
    congr 1
    simp [List.length_append]
    omega

theorem seqElems_elements (A : List YamlEvent) (ts : List YamlTree) :
    ∀ (rest : List YamlEvent) (i : Nat),
    A.drop i = eventsOfTrees ts ++ rest →
    depthL ts + 1 < U32 →
    seqElemsLoop A (eventsOfTrees ts ++ rest) 0 i =
    elemOuts ts i ++ seqElemsLoop A rest 0 (i + (eventsOfTrees ts).length) := by
  induction ts with
  | nil =>
    intro rest i _ _
    simp [eventsOfTrees, elemOuts]
  | cons t ts ih =>
    intro rest i hdrop hdepth
    have hdt : depthT t + 1 < U32 := by
      have hle : depthT t ≤ depthL (t :: ts) := by
        rw [depthL]
        exact le_max_left _ _
      omega
    have hdts : depthL ts + 1 < U32 := by
      have hle : depthL ts ≤ depthL (t :: ts) := by
        rw [depthL]
        exact le_max_right _ _
      omega
    rw [eventsOfTrees, List.append_assoc] at hdrop ⊢
    cases t with
    | scalar v =>
      have hdrop2 : A.drop (i + 1) = eventsOfTrees ts ++ rest := by
        rw [eventsOfTree, List.singleton_append] at hdrop
        exact drop_cons_of_drop A i _ _ hdrop
      have hrec := ih _ (i + 1) hdrop2 hdts
      rw [eventsOfTree, List.singleton_append]
      have hstep : seqElemsLoop A
          (YamlEvent.scalar none none v v.length 1 0 0 :: (eventsOfTrees ts ++ rest)) 0 i =
          SeqElemOut.rawScalar v v.length ::
            seqElemsLoop A (eventsOfTrees ts ++ rest) 0 (i + 1) := by
        simp [seqElemsLoop]
      rw [hstep, hrec]
      simp [elemOuts, eventsOfTree, List.length_append, List.map_append, List.cons_append,
        List.append_assoc, Nat.add_assoc, Nat.add_comm, Nat.add_left_comm]
    | seq xs =>
      have hnode : subTreeLoop (A.drop i) 0 =
          (eventsOfTree (YamlTree.seq xs)).map copyEvent := by
        rw [hdrop]
        exact subTree_node _ _ hdt
      have hdrop2 := drop_chunk_of_drop A i _ _ hdrop
      have hrec := ih _ _ hdrop2 hdts
      rw [eventsOfTree, List.cons_append]
      have hstep : seqElemsLoop A
          (YamlEvent.sequenceStart none none 1 0 ::
            ((eventsOfTrees xs ++ [YamlEvent.sequenceEnd]) ++ (eventsOfTrees ts ++ rest))) 0 i =
          SeqElemOut.subtree (yaml_get_sub_tree_events A i) ::
            seqElemsLoop A ((eventsOfTrees xs ++ [YamlEvent.sequenceEnd]) ++
              (eventsOfTrees ts ++ rest)) 1 (i + 1) := by
        simp [seqElemsLoop]
      rw [hstep]
      rw [List.append_assoc]
      rw [seqElemsTrees_skip A xs (fun u _ => seqElemsTree_skip A u) _ 1 _ (by omega)]
      rw [List.singleton_append]
      have hstep2 : seqElemsLoop A (YamlEvent.sequenceEnd :: (eventsOfTrees ts ++ rest)) 1
          (i + 1 + (eventsOfTrees xs).length) =
          seqElemsLoop A (eventsOfTrees ts ++ rest) 0
            (i + 1 + (eventsOfTrees xs).length + 1) := by
        simp [seqElemsLoop]
      rw [hstep2]
      have hidx : i + 1 + (eventsOfTrees xs).length + 1 =
          i + (eventsOfTree (YamlTree.seq xs)).length := by
        simp [eventsOfTree]
        omega
      rw [hidx, hrec]
      unfold yaml_get_sub_tree_events
      rw [hnode]
      simp [elemOuts, eventsOfTree, List.length_append, List.map_append, List.cons_append,
        List.append_assoc, Nat.add_assoc, Nat.add_comm, Nat.add_left_comm]
    | map ps =>
      have hnode : subTreeLoop (A.drop i) 0 =
          (eventsOfTree (YamlTree.map ps)).map copyEvent := by
        rw [hdrop]
        exact subTree_node _ _ hdt
      have hdrop2 := drop_chunk_of_drop A i _ _ hdrop
      have hrec := ih _ _ hdrop2 hdts
      rw [eventsOfTree, List.cons_append]
      have hstep : seqElemsLoop A
          (YamlEvent.mappingStart none none 1 0 ::
            ((eventsOfPairs ps ++ [YamlEvent.mappingEnd]) ++ (eventsOfTrees ts ++ rest))) 0 i =
          SeqElemOut.subtree (yaml_get_sub_tree_events A i) ::
            seqElemsLoop A ((eventsOfPairs ps ++ [YamlEvent.mappingEnd]) ++
              (eventsOfTrees ts ++ rest)) 1 (i + 1) := by
        simp [seqElemsLoop]
      rw [hstep]
      rw [List.append_assoc]
      rw [seqElemsPairs_skip A ps
        (fun u _ => ⟨seqElemsTree_skip A u.1, seqElemsTree_skip A u.2⟩) _ 1 _ (by omega)]
      rw [List.singleton_append]
      have hstep2 : seqElemsLoop A (YamlEvent.mappingEnd :: (eventsOfTrees ts ++ rest)) 1
          (i + 1 + (eventsOfPairs ps).length) =
          seqElemsLoop A (eventsOfTrees ts ++ rest) 0
            (i + 1 + (eventsOfPairs ps).length + 1) := by
        simp [seqElemsLoop]
      rw [hstep2]
      have hidx : i + 1 + (eventsOfPairs ps).length + 1 =
          i + (eventsOfTree (YamlTree.map ps)).length := by
        simp [eventsOfTree]
        omega
      rw [hidx, hrec]
      unfold yaml_get_sub_tree_events
      rw [hnode]
      simp [elemOuts, eventsOfTree, List.length_append, List.map_append, List.cons_append,
        List.append_assoc, Nat.add_assoc, Nat.add_comm, Nat.add_left_comm]

/-- C8 counterexample: on the sequence document `- a`, the enumeration
yields the scalar element as its raw bytes, not as the Subtree
Extractor's output at the element's start index, so the claim-side
enumeration (extractor invoked for every element start) disagrees with
the code. -/
theorem sequence_elements_counterexample :
    yaml_sequence_elements ex8 = .ok [.rawScalar [97] 1] ∧
    seqElemsClaimed ex8 = .ok [.subtree [.streamStart, .documentStart,
      .scalar none none [97] 1 0 0 0, .documentEnd, .streamEnd]] ∧
    yaml_sequence_elements ex8 ≠ seqElemsClaimed ex8 := by
  refine ⟨by decide, by decide, by decide⟩

/-- C8 amended: for every document whose root is a sequence, the
enumeration yields exactly one item per direct element in document
order; every container element is obtained by invoking the Subtree
Extractor at that element's start index, while every scalar element is
yielded directly as its raw scalar bytes. -/
theorem sequence_elements_amended (xs : List YamlTree)
    (hd : depthL xs + 2 < U32) :
    yaml_sequence_elements (docEvents (.seq xs)) = .ok (elemOuts xs 3) := by
  unfold yaml_sequence_elements
  have htype : yaml_get_object_type (docEvents (YamlTree.seq xs)) = some sequenceTypeText := by
    unfold yaml_get_object_type docEvents
    rw [eventsOfTree, List.cons_append]
    rfl
  rw [htype]
  have hcheck : sequenceCheckPasses sequenceTypeText = true := by decide
  simp only [hcheck, if_true]
  have hdrop : (docEvents (YamlTree.seq xs)).drop 3 =
      eventsOfTrees xs ++ [YamlEvent.sequenceEnd, .documentEnd, .streamEnd] := by
    unfold docEvents
    rw [eventsOfTree]
    simp [List.append_assoc]
  rw [hdrop]
  rw [seqElems_elements _ xs _ 3 hdrop (by omega)]
  have htail : seqElemsLoop (docEvents (YamlTree.seq xs))
      [YamlEvent.sequenceEnd, .documentEnd, .streamEnd] 0
      (3 + (eventsOfTrees xs).length) = [] := by
    simp [seqElemsLoop]
  rw [htail]
  simp

/-- Witness for the amended C8 on the one-element sequence `- a`. -/
theorem sequence_elements_amended_witness :
    depthL [YamlTree.scalar [97]] + 2 < U32 ∧
    yaml_sequence_elements (docEvents (.seq [.scalar [97]])) =
      .ok (elemOuts [YamlTree.scalar [97]] 3) :=
  ⟨by decide, sequence_elements_amended [.scalar [97]] (by decide)⟩
